import Mathlib

/-
Verification of the storage and block-ingest core of the ton-indexer
repository against its natural-language specification.

The Rust sources are shallowly embedded below:
- association lists stand for the in-memory hash maps,
- total functions from keys to optional rows stand for the KV engine
  column families (point reads),
- scheduled writes are made explicit as lists of batch operations,
- machine integers are Nat/Int with explicit reductions modulo two to
  the word size where overflow can matter.

External collaborators (the KV engine refcount helpers, the cell-data
codec of the ton_types crate) that are not part of the sources are
modelled from the specification or taken as parameters, and each such
definition says so in its doc comment.
-/

/-! ## Association-list helpers (embedding of FastHashMap / HashMap) -/

/-- Lookup in an association list; the embedding of HashMap get. -/
def alookup {α β : Type} [DecidableEq α] : List (α × β) → α → Option β
  | [], _ => none
  | (k, v) :: rest, key => if key = k then some v else alookup rest key

/-- Replace the value bound to a key; the embedding of mutating an
occupied HashMap entry in place. -/
def aupdate {α β : Type} [DecidableEq α] : List (α × β) → α → β → List (α × β)
  | [], _, _ => []
  | (k, v) :: rest, key, nv =>
    if key = k then (k, nv) :: rest else (k, v) :: aupdate rest key nv

/-- Bind a key that is not yet present; the embedding of inserting into
a vacant HashMap entry. -/
def ainsert {α β : Type} [DecidableEq α] (m : List (α × β)) (k : α) (v : β) :
    List (α × β) :=
  (k, v) :: m

/-! ## Machine-integer bounds -/

/-- Modulus of the u32 machine integers used for block sequence numbers. -/
def U32 : Nat := 2 ^ 32

/-- Modulus of the u64 machine integers used for validator weights. -/
def U64 : Nat := 2 ^ 64

/-! ## ShardStateCache (src/utils/shard_state_cache.rs)

The LRU map held behind the Mutex is external (lru_time_cache crate), so
its type and its insert and lookup operations are parameters of the
embedding.  The cache itself is the Option wrapper around it, exactly as
in the source. -/

/-- Embedding of ShardStateCache: an optional cache map of abstract
type M (the external LruCache behind its Mutex). -/
structure ShardStateCacheM (M : Type) where
  map : Option M

/-- Embedding of ShardStateCache::new: the map is built from the
configuration by Option.map, so a None configuration yields no map. -/
def ShardStateCacheM.new {C M : Type} (config : Option C) (mk : C → M) :
    ShardStateCacheM M :=
  ⟨config.map mk⟩

/-- Embedding of ShardStateCache::get: look in the map when present. -/
def ShardStateCacheM.get {M B S : Type} (lookup : M → B → Option S)
    (c : ShardStateCacheM M) (blockId : B) : Option S :=
  c.map.bind (fun m => lookup m blockId)

/-- Embedding of ShardStateCache::set: when a map is present, invoke the
factory and insert its result; otherwise do nothing at all. -/
def ShardStateCacheM.set {M B S : Type} (insertFn : M → B → S → M)
    (c : ShardStateCacheM M) (blockId : B) (factory : Unit → S) :
    ShardStateCacheM M :=
  match c.map with
  | some m => ⟨some (insertFn m blockId (factory ()))⟩
  | none => c

/-- C10: a ShardStateCache constructed with config None is a disabled
cache: get always returns None, and set leaves the cache unchanged and
is independent of the factory closure (so the factory result is never
used and no state is left behind). -/
theorem shard_state_cache_none_disabled {C M B S : Type} (mk : C → M)
    (lookup : M → B → Option S) (insertFn : M → B → S → M) (blockId : B)
    (f g : Unit → S) :
    (ShardStateCacheM.new (none : Option C) mk).get lookup blockId = none ∧
    (ShardStateCacheM.new (none : Option C) mk).set insertFn blockId f =
      ShardStateCacheM.new (none : Option C) mk ∧
    (ShardStateCacheM.new (none : Option C) mk).set insertFn blockId f =
      (ShardStateCacheM.new (none : Option C) mk).set insertFn blockId g := by
  refine ⟨rfl, rfl, rfl⟩

/-! ## Broadcast validation quorum (src/engine/complex_operations/shard_client.rs)

Embedding of the final stage of validate_broadcast: the validator-subset
hash comparison followed by the signature-weight check.  Subset
derivation and signature verification are external cryptography; the
verified weight they produce is a parameter. -/

/-- Error cases surfaced by the embedded validate_broadcast stages. -/
inductive BroadcastError where
  | badValidatorSetHash
  | insufficientWeight
deriving DecidableEq

/-- Embedding of the decision part of validate_broadcast: fail when the
computed subset hash differs from the hash in the broadcast, sum the
validator weights (u64 additions, hence the reduction mod U64), and fail
when weight * 3 <= total_weight * 2 computed in u64. -/
def validateBroadcast (validatorsHashShort broadcastValidatorSetHash : Nat)
    (weights : List Nat) (checkedWeight : Nat) : Except BroadcastError Unit :=
  if validatorsHashShort ≠ broadcastValidatorSetHash then
    .error .badValidatorSetHash
  else
    let totalWeight := weights.sum % U64
    if checkedWeight * 3 % U64 ≤ totalWeight * 2 % U64 then
      .error .insufficientWeight
    else
      .ok ()

/-- C3: broadcast validation accepts a signature set if and only if the
verified weight satisfies weight * 3 > total_weight * 2; in particular
the boundary weight * 3 = total_weight * 2 is rejected.  The bounds
hypotheses state that neither product overflows u64, which is where the
comparison of the source lives. -/
theorem validate_broadcast_quorum (vh bh : Nat) (weights : List Nat)
    (w : Nat) (hhash : vh = bh) (hw : w * 3 < U64)
    (ht : weights.sum * 2 < U64) :
    (validateBroadcast vh bh weights w = .ok () ↔
      weights.sum * 2 < w * 3) ∧
    (w * 3 = weights.sum * 2 →
      validateBroadcast vh bh weights w = .error .insufficientWeight) := by
  have hts : weights.sum < U64 := by omega
  unfold validateBroadcast
  simp only [hhash, ne_eq, not_true_eq_false, if_false, ite_not]
  rw [Nat.mod_eq_of_lt hw, Nat.mod_eq_of_lt hts, Nat.mod_eq_of_lt ht]
  constructor
  · constructor
    · intro hok
      by_contra hle
      simp only [not_lt] at hle
      simp only [if_pos hle] at hok
      exact Except.noConfusion hok
    · intro hlt
      have : ¬ w * 3 ≤ weights.sum * 2 := by omega
      simp [this]
  · intro heq
    have : w * 3 ≤ weights.sum * 2 := by omega
    simp [this]

/-- Witness for C3 at concrete weights: validators of weights 2, 2, 2;
a verified weight of 4 sits exactly at two thirds and is rejected, and
the acceptance equivalence holds as stated. -/
theorem validate_broadcast_quorum_witness :
    (validateBroadcast 7 7 [2, 2, 2] 4 = .ok () ↔ 6 * 2 < 4 * 3) ∧
    (4 * 3 = 6 * 2 →
      validateBroadcast 7 7 [2, 2, 2] 4 = .error .insufficientWeight) := by
  have h := validate_broadcast_quorum 7 7 [2, 2, 2] 4 rfl
    (by decide) (by decide)
  simpa using h

/-! ## Archive manager id assignment (src/storage/archive_manager.rs)

The in-memory BTreeSet of archive ids is embedded as a list of Nat: the
only operations the source performs on it are insert and the greatest
element below a bound, both of which ignore duplicates. -/

/-- Number of blocks per archive package (ARCHIVE_PACKAGE_SIZE). -/
def ARCHIVE_PACKAGE_SIZE : Nat := 100

/-- Alignment of fresh archive ids (ARCHIVE_SLICE_SIZE). -/
def ARCHIVE_SLICE_SIZE : Nat := 20000

/-- Greatest element of the list that is at most the bound; the
embedding of BTreeSet range(..=x).next_back(). -/
def maxLe : List Nat → Nat → Option Nat
  | [], _ => none
  | i :: rest, x =>
    if i ≤ x then
      match maxLe rest x with
      | some j => some (max i j)
      | none => some i
    else maxLe rest x

/-- Soundness of maxLe: a returned element belongs to the list and
respects the bound. -/
theorem maxLe_sound : ∀ {ids : List Nat} {x m : Nat},
    maxLe ids x = some m → m ∈ ids ∧ m ≤ x := by
  intro ids
  induction ids with
  | nil => intro x m h; simp [maxLe] at h
  | cons i rest ih =>
    intro x m h
    unfold maxLe at h
    by_cases hi : i ≤ x
    · simp only [if_pos hi] at h
      cases hr : maxLe rest x with
      | none =>
        rw [hr] at h
        cases h
        exact ⟨List.mem_cons_self i rest, hi⟩
      | some j =>
        rw [hr] at h
        cases h
        have hj := ih hr
        rcases max_choice i j with hm | hm <;> rw [hm]
        · exact ⟨List.mem_cons_self i rest, hi⟩
        · exact ⟨List.mem_cons_of_mem i hj.1, hj.2⟩
    · simp only [if_neg hi] at h
      have hj := ih h
      exact ⟨List.mem_cons_of_mem i hj.1, hj.2⟩

/-- Emptiness of maxLe: when nothing is returned, no element of the
list respects the bound. -/
theorem maxLe_none : ∀ {ids : List Nat} {x : Nat},
    maxLe ids x = none → ∀ i ∈ ids, x < i := by
  intro ids
  induction ids with
  | nil => intro x _ i hi; simp at hi
  | cons a rest ih =>
    intro x h i hi
    unfold maxLe at h
    by_cases ha : a ≤ x
    · simp only [if_pos ha] at h
      cases hr : maxLe rest x <;> rw [hr] at h <;> cases h
    · simp only [if_neg ha] at h
      rcases List.mem_cons.mp hi with rfl | hmem
      · omega
      · exact ih h i hmem

/-- Maximality of maxLe: every listed element within the bound is at
most the returned one. -/
theorem maxLe_isMax : ∀ {ids : List Nat} {x m : Nat},
    maxLe ids x = some m → ∀ i ∈ ids, i ≤ x → i ≤ m := by
  intro ids
  induction ids with
  | nil => intro x m h; simp [maxLe] at h
  | cons a rest ih =>
    intro x m h i hi hix
    unfold maxLe at h
    by_cases ha : a ≤ x
    · simp only [if_pos ha] at h
      cases hr : maxLe rest x with
      | none =>
        rw [hr] at h
        cases h
        rcases List.mem_cons.mp hi with rfl | hmem
        · exact le_refl _
        · exact absurd hix (by have := maxLe_none hr i hmem; omega)
      | some j =>
        rw [hr] at h
        cases h
        rcases List.mem_cons.mp hi with rfl | hmem
        · exact le_max_left _ _
        · exact le_trans (ih hr i hmem hix) (le_max_right _ _)
    · simp only [if_neg ha] at h
      rcases List.mem_cons.mp hi with rfl | hmem
      · omega
      · exact ih h i hmem hix

/-- Completeness of maxLe: an element within the bound that dominates
all other such elements is the one returned. -/
theorem maxLe_eq_some_of {ids : List Nat} {x r : Nat} (hmem : r ∈ ids)
    (hle : r ≤ x) (hmax : ∀ i ∈ ids, i ≤ x → i ≤ r) :
    maxLe ids x = some r := by
  cases h : maxLe ids x with
  | none => exact absurd hle (by have := maxLe_none h r hmem; omega)
  | some m =>
    have hm := maxLe_sound h
    have h1 : r ≤ m := maxLe_isMax h r hmem hle
    have h2 : m ≤ r := hmax m hm.1 hm.2
    rw [Nat.le_antisymm h1 h2]


/-- Base id chosen by compute_archive_id before the package-boundary
check: the slice-aligned value, raised to the greatest registered id at
most mc_seq_no when that id exceeds the alignment. -/
def computeArchiveIdBase (ids : List Nat) (mcSeqNo : Nat) : Nat :=
  match maxLe ids mcSeqNo with
  | some prevId =>
    if mcSeqNo - mcSeqNo % ARCHIVE_SLICE_SIZE < prevId then prevId
    else mcSeqNo - mcSeqNo % ARCHIVE_SLICE_SIZE
  | none => mcSeqNo - mcSeqNo % ARCHIVE_SLICE_SIZE

/-- Embedding of ArchiveManager::compute_archive_id.  It takes the
in-memory archive id set and the relevant handle fields (the
masterchain ref seq_no and the key-block flag) and returns the assigned
archive id together with the updated id set.  Subtraction is Nat
subtraction, which coincides with the saturating_sub of the source. -/
def computeArchiveId (ids : List Nat) (mcSeqNo : Nat) (isKeyBlock : Bool) :
    Nat × List Nat :=
  if isKeyBlock then
    (mcSeqNo, mcSeqNo :: ids)
  else if ARCHIVE_PACKAGE_SIZE ≤ mcSeqNo - computeArchiveIdBase ids mcSeqNo then
    (mcSeqNo, mcSeqNo :: ids)
  else
    (computeArchiveIdBase ids mcSeqNo, ids)

/-- Embedding of ArchiveManager::get_archive_id: the greatest registered
id at most mc_seq_no, provided mc_seq_no falls within its package; the
sum id + ARCHIVE_PACKAGE_SIZE is a u32 addition in the source, hence
the reduction mod U32. -/
def getArchiveId (ids : List Nat) (mcSeqNo : Nat) : Option Nat :=
  match maxLe ids mcSeqNo with
  | some id =>
    if mcSeqNo < (id + ARCHIVE_PACKAGE_SIZE) % U32 then some id else none
  | none => none

/-- Bound for the base id: it never exceeds mc_seq_no. -/
theorem computeArchiveIdBase_le (ids : List Nat) (mcSeqNo : Nat) :
    computeArchiveIdBase ids mcSeqNo ≤ mcSeqNo := by
  unfold computeArchiveIdBase
  cases hprev : maxLe ids mcSeqNo with
  | none =>
    show mcSeqNo - mcSeqNo % ARCHIVE_SLICE_SIZE ≤ mcSeqNo
    omega
  | some p =>
    have hp := maxLe_sound hprev
    show (if mcSeqNo - mcSeqNo % ARCHIVE_SLICE_SIZE < p then p
      else mcSeqNo - mcSeqNo % ARCHIVE_SLICE_SIZE) ≤ mcSeqNo
    by_cases hc : mcSeqNo - mcSeqNo % ARCHIVE_SLICE_SIZE < p
    · simp only [if_pos hc]; exact hp.2
    · simp only [if_neg hc]; omega

/-- Maximality for the base id: every registered id within the bound is
at most the base id. -/
theorem computeArchiveIdBase_isMax (ids : List Nat) (mcSeqNo : Nat) :
    ∀ i ∈ ids, i ≤ mcSeqNo → i ≤ computeArchiveIdBase ids mcSeqNo := by
  intro i hi hile
  unfold computeArchiveIdBase
  cases hprev : maxLe ids mcSeqNo with
  | none => exact absurd hile (by have := maxLe_none hprev i hi; omega)
  | some p =>
    have hip : i ≤ p := maxLe_isMax hprev i hi hile
    show i ≤ (if mcSeqNo - mcSeqNo % ARCHIVE_SLICE_SIZE < p then p
      else mcSeqNo - mcSeqNo % ARCHIVE_SLICE_SIZE)
    by_cases hc : mcSeqNo - mcSeqNo % ARCHIVE_SLICE_SIZE < p
    · simp only [if_pos hc]; exact hip
    · simp only [if_neg hc]; omega

/-- Lookup after registering mc_seq_no itself succeeds with it, as long
as the u32 package bound does not wrap. -/
theorem getArchiveId_cons_self (ids : List Nat) (mcSeqNo : Nat)
    (hwrap : mcSeqNo + ARCHIVE_PACKAGE_SIZE < U32) :
    getArchiveId (mcSeqNo :: ids) mcSeqNo = some mcSeqNo := by
  have hmax : maxLe (mcSeqNo :: ids) mcSeqNo = some mcSeqNo :=
    maxLe_eq_some_of (List.mem_cons_self _ _) (le_refl _)
      (fun i _ hle => hle)
  have hlt : mcSeqNo < (mcSeqNo + ARCHIVE_PACKAGE_SIZE) % U32 := by
    rw [Nat.mod_eq_of_lt hwrap]
    unfold ARCHIVE_PACKAGE_SIZE
    omega
  unfold getArchiveId
  rw [hmax]
  exact if_pos hlt

/-- C2 counterexample: on a fresh id set, a non-key block at
mc_seq_no = 20000 is assigned archive id 20000 without registering it,
and the subsequent get_archive_id(20000) returns none instead of an id
covering 20000. -/
theorem compute_archive_id_coverage_cex :
    computeArchiveId [] 20000 false = (20000, []) ∧
    getArchiveId [] 20000 = none := by
  constructor <;> rfl

/-- C2 amended: whenever the id assigned by compute_archive_id is
registered in the id set after the call (as happens for every key block
and whenever the package boundary is crossed, registered ids being
preserved otherwise), and mc_seq_no + ARCHIVE_PACKAGE_SIZE does not
overflow u32, get_archive_id(mc_seq_no) returns exactly that id, and it
covers mc_seq_no: id <= mc_seq_no < id + ARCHIVE_PACKAGE_SIZE. -/
theorem compute_archive_id_coverage (ids : List Nat) (mcSeqNo : Nat)
    (isKeyBlock : Bool) (r : Nat) (ids2 : List Nat)
    (hcall : computeArchiveId ids mcSeqNo isKeyBlock = (r, ids2))
    (hreg : r ∈ ids2) (hwrap : mcSeqNo + ARCHIVE_PACKAGE_SIZE < U32) :
    getArchiveId ids2 mcSeqNo = some r ∧
    r ≤ mcSeqNo ∧ mcSeqNo < r + ARCHIVE_PACKAGE_SIZE := by
  have hbase_le := computeArchiveIdBase_le ids mcSeqNo
  have hlt : mcSeqNo < mcSeqNo + ARCHIVE_PACKAGE_SIZE := by
    unfold ARCHIVE_PACKAGE_SIZE; omega
  unfold computeArchiveId at hcall
  by_cases hkb : isKeyBlock = true
  · rw [if_pos hkb] at hcall
    cases hcall
    exact ⟨getArchiveId_cons_self ids mcSeqNo hwrap, le_refl _, hlt⟩
  · rw [if_neg hkb] at hcall
    by_cases hfull :
        ARCHIVE_PACKAGE_SIZE ≤ mcSeqNo - computeArchiveIdBase ids mcSeqNo
    · rw [if_pos hfull] at hcall
      cases hcall
      exact ⟨getArchiveId_cons_self ids mcSeqNo hwrap, le_refl _, hlt⟩
    · rw [if_neg hfull] at hcall
      cases hcall
      have hcover :
          mcSeqNo < computeArchiveIdBase ids mcSeqNo + ARCHIVE_PACKAGE_SIZE :=
        by omega
      have hcover2 : mcSeqNo <
          (computeArchiveIdBase ids mcSeqNo + ARCHIVE_PACKAGE_SIZE) % U32 := by
        rw [Nat.mod_eq_of_lt (by omega)]
        exact hcover
      have hmaxids :
          maxLe ids mcSeqNo = some (computeArchiveIdBase ids mcSeqNo) :=
        maxLe_eq_some_of hreg hbase_le (computeArchiveIdBase_isMax ids mcSeqNo)
      unfold getArchiveId
      rw [hmaxids]
      exact ⟨if_pos hcover2, hbase_le, hcover⟩

/-- Witness for the amended C2: a key block at mc_seq_no = 20050 over a
fresh id set registers 20050, and get_archive_id(20050) returns it with
the package bounds. -/
theorem compute_archive_id_coverage_witness :
    getArchiveId [20050] 20050 = some 20050 ∧
    20050 ≤ 20050 ∧ 20050 < 20050 + ARCHIVE_PACKAGE_SIZE := by
  exact compute_archive_id_coverage [] 20050 true 20050 [20050] rfl
    (List.mem_cons_self _ _) (by decide)

/-! ## Block GC (src/storage/archive_manager.rs, ArchiveManager::gc)

Bytes are Nat values below 256; keys are byte lists.  The package-entry
column is embedded as the ascending list of its keys, the key-blocks
column as a membership function on seq_no, and top_blocks as a
membership function on (workchain, shard prefix, seq_no).  The batched
deletions are made explicit as a list of operations; the optional
max_blocks_per_batch only splits that same list into several writes and
is dropped. -/

/-- Big-endian value of a byte list. -/
def bytesBE (bs : List Nat) : Nat :=
  bs.foldl (fun acc b => acc * 256 + b) 0

/-- Signed 32-bit value of a 4-byte big-endian list. -/
def i32FromBE (bs : List Nat) : Int :=
  if bytesBE bs < 2 ^ 31 then (bytesBE bs : Int) else (bytesBE bs : Int) - 2 ^ 32

/-- Modelled from the spec: the parsed 16-byte package-entry key head,
workchain(4B BE, signed) ++ shard_prefix(8B BE) ++ seq_no(4B BE); the
struct behind PackageEntryIdPrefix, whose source file is not present. -/
structure EntryPfx where
  workchain : Int
  shardPfx : Nat
  seqNo : Nat
deriving DecidableEq

/-- Modelled from the spec: PackageEntryIdPrefix::from_slice, reading
the 16-byte key head and failing on shorter keys. -/
def pfxFromSlice (key : List Nat) : Option EntryPfx :=
  if key.length < 16 then none
  else some
    { workchain := i32FromBE (key.take 4)
      shardPfx := bytesBE ((key.drop 4).take 8)
      seqNo := bytesBE ((key.drop 12).take 4) }

/-- Masterchain test of the external ton_block ShardIdent: the
masterchain workchain id is -1. -/
def EntryPfx.isMasterchain (p : EntryPfx) : Bool := p.workchain = -1

/-- Deletions scheduled by the GC batch. -/
inductive GcOp where
  | deleteEntry (key : List Nat)
  | deleteHandle (key : List Nat)
deriving DecidableEq

/-- Embedding of the retained-or-deleted decision of ArchiveManager::gc
for one key whose head parsed as p: retain live-frontier keys, retain
zerostate and masterchain key blocks, and otherwise delete the
package-entry row plus, for keys of length at least 48, the
block-handle row keyed by key[16..48]. -/
def gcKeyOps (tb : Int → Nat → Nat → Bool) (kb : Nat → Bool)
    (key : List Nat) (p : EntryPfx) : List GcOp :=
  if tb p.workchain p.shardPfx p.seqNo then []
  else if p.seqNo = 0 ∨ (p.isMasterchain ∧ kb p.seqNo) then []
  else GcOp.deleteEntry key ::
    (if 48 ≤ key.length then
      [GcOp.deleteHandle ((key.drop 16).take 32)]
    else [])

/-- Embedding of the per-key body of ArchiveManager::gc: parse the key
head (failing aborts the whole GC) and emit the decided deletions. -/
def gcEntryOps (tb : Int → Nat → Nat → Bool) (kb : Nat → Bool)
    (key : List Nat) : Except Unit (List GcOp) :=
  match pfxFromSlice key with
  | none => .error ()
  | some p => .ok (gcKeyOps tb kb key p)

/-- Embedding of ArchiveManager::gc over the ascending key list of the
package-entries column: concatenation of the per-key deletions. -/
def blocksGc (tb : Int → Nat → Nat → Bool) (kb : Nat → Bool) :
    List (List Nat) → Except Unit (List GcOp)
  | [] => .ok []
  | k :: rest =>
    match gcEntryOps tb kb k, blocksGc tb kb rest with
    | .ok ops, .ok more => .ok (ops ++ more)
    | .error e, _ => .error e
    | .ok _, .error e => .error e

/-- Condition under which the GC deletes the package entry at a key. -/
def gcDeleteCond (tb : Int → Nat → Nat → Bool) (kb : Nat → Bool)
    (k : List Nat) : Prop :=
  ∃ p, pfxFromSlice k = some p ∧
    tb p.workchain p.shardPfx p.seqNo = false ∧
    p.seqNo ≠ 0 ∧ ¬(p.isMasterchain ∧ kb p.seqNo)

/-- Success inversion for the per-key body. -/
theorem gcEntryOps_ok (tb : Int → Nat → Nat → Bool) (kb : Nat → Bool)
    (key : List Nat) (ops1 : List GcOp)
    (h : gcEntryOps tb kb key = .ok ops1) :
    ∃ p, pfxFromSlice key = some p ∧ ops1 = gcKeyOps tb kb key p := by
  unfold gcEntryOps at h
  split at h
  · cases h
  · rename_i p hp
    injection h with h
    exact ⟨p, hp, h.symm⟩

/-- Per-key characterization: a deleteEntry operation is emitted for
exactly the keys matching gcDeleteCond. -/
theorem gcKeyOps_deleteEntry_mem (tb : Int → Nat → Nat → Bool)
    (kb : Nat → Bool) (key k2 : List Nat) (p : EntryPfx)
    (hp : pfxFromSlice key = some p) :
    GcOp.deleteEntry k2 ∈ gcKeyOps tb kb key p ↔
      (k2 = key ∧ gcDeleteCond tb kb key) := by
  unfold gcKeyOps
  by_cases h1 : tb p.workchain p.shardPfx p.seqNo = true
  · rw [if_pos h1]
    simp only [List.not_mem_nil, false_iff]
    rintro ⟨rfl, p2, hp2, htb, -, -⟩
    rw [hp] at hp2
    injection hp2 with hp2
    subst hp2
    rw [h1] at htb
    cases htb
  · rw [if_neg h1]
    by_cases h2 : p.seqNo = 0 ∨ (p.isMasterchain ∧ kb p.seqNo)
    · rw [if_pos h2]
      simp only [List.not_mem_nil, false_iff]
      rintro ⟨rfl, p2, hp2, -, hnz, hnm⟩
      rw [hp] at hp2
      injection hp2 with hp2
      subst hp2
      rcases h2 with h2 | h2
      · exact hnz h2
      · exact hnm h2
    · rw [if_neg h2]
      constructor
      · intro hmem
        rcases List.mem_cons.mp hmem with heq | hmem2
        · injection heq with heq
          refine ⟨heq, p, hp, ?_, fun h0 => h2 (Or.inl h0),
            fun hmk => h2 (Or.inr hmk)⟩
          cases hb : tb p.workchain p.shardPfx p.seqNo
          · rfl
          · exact absurd hb h1
        · by_cases hl : 48 ≤ key.length
          · rw [if_pos hl] at hmem2
            simp at hmem2
          · rw [if_neg hl] at hmem2
            simp at hmem2
      · rintro ⟨rfl, -⟩
        exact List.mem_cons_self _ _

/-- Per-key companion: when the GC deletes an entry whose key is at
least 48 bytes long, the handle deletion for key[16..48] is emitted by
the same step. -/
theorem gcKeyOps_handle_mem (tb : Int → Nat → Nat → Bool)
    (kb : Nat → Bool) (key : List Nat) (p : EntryPfx)
    (hp : pfxFromSlice key = some p)
    (hdel : GcOp.deleteEntry key ∈ gcKeyOps tb kb key p)
    (hlen : 48 ≤ key.length) :
    GcOp.deleteHandle ((key.drop 16).take 32) ∈ gcKeyOps tb kb key p := by
  have hcond := (gcKeyOps_deleteEntry_mem tb kb key key p hp).mp hdel
  obtain ⟨-, p2, hp2, htb, hnz, hnm⟩ := hcond
  rw [hp] at hp2
  injection hp2 with hp2
  subst hp2
  unfold gcKeyOps
  rw [if_neg (by rw [htb]; exact Bool.false_ne_true)]
  rw [if_neg (by rintro (h0 | hmk); exact hnz h0; exact hnm hmk)]
  rw [if_pos hlen]
  exact List.mem_cons_of_mem _ (List.mem_cons_self _ _)

/-- C4: block GC deletes a package-entry row if and only if its key
head is not in top_blocks, its seq_no is nonzero, and it is not a
masterchain key block; and whenever it deletes an entry whose key is at
least 48 bytes long it also schedules deletion of the block-handle row
keyed by key[16..48]. -/
theorem blocks_gc_spec (tb : Int → Nat → Nat → Bool) (kb : Nat → Bool)
    (keys : List (List Nat)) (ops : List GcOp)
    (hgc : blocksGc tb kb keys = .ok ops) :
    (∀ k, GcOp.deleteEntry k ∈ ops ↔ (k ∈ keys ∧ gcDeleteCond tb kb k)) ∧
    (∀ k, GcOp.deleteEntry k ∈ ops → 48 ≤ k.length →
      GcOp.deleteHandle ((k.drop 16).take 32) ∈ ops) := by
  induction keys generalizing ops with
  | nil =>
    unfold blocksGc at hgc
    injection hgc with hgc
    subst hgc
    constructor
    · intro k
      simp
    · intro k hk
      simp at hk
  | cons key rest ih =>
    unfold blocksGc at hgc
    split at hgc
    · rename_i ops1 more h1 h2
      injection hgc with hgc
      subst hgc
      obtain ⟨p, hp, hops1⟩ := gcEntryOps_ok tb kb key ops1 h1
      subst hops1
      have ihm := ih more h2
      constructor
      · intro k
        rw [List.mem_append]
        constructor
        · rintro (hin | hin)
          · have hkk := (gcKeyOps_deleteEntry_mem tb kb key k p hp).mp hin
            exact ⟨hkk.1 ▸ List.mem_cons_self _ _, hkk.1 ▸ hkk.2⟩
          · have hkk := (ihm.1 k).mp hin
            exact ⟨List.mem_cons_of_mem _ hkk.1, hkk.2⟩
        · rintro ⟨hmem, hcond⟩
          rcases List.mem_cons.mp hmem with rfl | hmem2
          · exact Or.inl
              ((gcKeyOps_deleteEntry_mem tb kb k k p hp).mpr ⟨rfl, hcond⟩)
          · exact Or.inr ((ihm.1 k).mpr ⟨hmem2, hcond⟩)
      · intro k hdel hlen
        rw [List.mem_append] at hdel ⊢
        rcases hdel with hin | hin
        · have hkk := (gcKeyOps_deleteEntry_mem tb kb key k p hp).mp hin
          obtain ⟨rfl, -⟩ := hkk
          exact Or.inl (gcKeyOps_handle_mem tb kb k p hp hin hlen)
        · exact Or.inr (ihm.2 k hin hlen)
    · cases hgc
    · cases hgc

/-- Top-blocks frontier for the GC witness: shard (0, 5) at seq 1000. -/
def tbW : Int → Nat → Nat → Bool :=
  fun w s n => decide (w = 0) && decide (s = 5) && decide (n = 1000)

/-- Key-blocks column for the GC witness: seq 500 is a key block. -/
def kbW : Nat → Bool := fun n => decide (n = 500)

/-- Package-entry key of shard block (0, 5, 999) for the GC witness. -/
def keyA999 : List Nat :=
  [0, 0, 0, 0, 0, 0, 0, 0, 0, 0, 0, 5, 0, 0, 3, 231] ++
    List.replicate 32 7 ++ [0]

/-- Keys iterated by the GC witness: one stale shard block. -/
def gcKeysW : List (List Nat) := [keyA999]

/-- Deletions computed by the embedded GC on the witness corpus. -/
def gcOpsW : List GcOp :=
  match blocksGc tbW kbW gcKeysW with
  | .ok ops => ops
  | .error _ => []

/-- Witness for C4: the stale shard-block entry (0, 5, 999), outside the
frontier and neither zerostate nor a masterchain key block, is deleted
together with its handle row key[16..48]. -/
theorem blocks_gc_spec_witness :
    GcOp.deleteEntry keyA999 ∈ gcOpsW ∧
    GcOp.deleteHandle ((keyA999.drop 16).take 32) ∈ gcOpsW := by
  have hgc : blocksGc tbW kbW gcKeysW = .ok gcOpsW := rfl
  have h := blocks_gc_spec tbW kbW gcKeysW gcOpsW hgc
  have hdel : GcOp.deleteEntry keyA999 ∈ gcOpsW :=
    (h.1 keyA999).mpr
      ⟨List.mem_cons_self _ _,
        ⟨⟨0, 5, 999⟩, by decide, by decide, by decide, by decide⟩⟩
  exact ⟨hdel, h.2 keyA999 hdel (by decide)⟩

/-! ## Cell storage (src/storage/shard_state_storage/cell_storage.rs)

Cell hashes are 32-byte lists; cells-column rows carry an i64 refcount
and the serialized body.  A materialized cell (the ton_types Cell fed to
store_cell) is a finite tree whose repr_hash, cell-data bytes and tree
counters are data of the node; the external cryptographic repr_hash is
therefore a field, not a computation. -/

/-- Value of a cells-column row: i64 refcount then body bytes. -/
structure RowValue where
  rc : Int
  body : List Nat
deriving DecidableEq

/-- Modelled from the spec: refcount::has_value holds when the row
carries a positive refcount; a row with refcount at most 0 is a
tombstone treated as absent. -/
def refcountHasValue (v : RowValue) : Bool := decide (0 < v.rc)

/-- Modelled from the spec: refcount::strip_refcount returns the body
for positive refcounts and none otherwise. -/
def stripRefcount (v : RowValue) : Option (List Nat) :=
  if 0 < v.rc then some v.body else none

/-- Modelled from the spec: refcount::decode_value_with_rc splits a row
into its i64 refcount and, only for positive refcounts, its body. -/
def decodeValueWithRc (v : RowValue) : Int × Option (List Nat) :=
  (v.rc, if 0 < v.rc then some v.body else none)

/-- Errors of the cell storage operations (CellStorageError); the
rocksdb Internal case cannot arise because column reads are embedded as
total functions. -/
inductive CellStorageError where
  | CellNotFound
  | InvalidCell
  | CounterMismatch
deriving DecidableEq

/-- Write scheduled into the rocksdb batch on the cells column: a merge
of a refcount delta, positive deltas carrying the serialized body
(refcount::add_positive_refount) and negative ones none
(refcount::encode_negative_refcount). -/
inductive BatchOp where
  | merge (key : List Nat) (delta : Int) (body : Option (List Nat))
deriving DecidableEq

/-- Materialized cell: repr_hash, serialized cell-data bytes (the
external ton_types CellData serialization), child cells, and the two
tree counters. -/
inductive SCell where
  | mk (hash : List Nat) (cellData : List Nat) (refs : List SCell)
      (treeBits : Nat) (treeCells : Nat)

/-- Repr hash of a materialized cell. -/
def SCell.hash : SCell → List Nat
  | .mk h _ _ _ _ => h

/-- Serialized cell-data bytes of a materialized cell. -/
def SCell.cellData : SCell → List Nat
  | .mk _ d _ _ _ => d

/-- Child cells of a materialized cell. -/
def SCell.refs : SCell → List SCell
  | .mk _ _ r _ _ => r

/-- Tree bits counter of a materialized cell. -/
def SCell.treeBits : SCell → Nat
  | .mk _ _ _ b _ => b

/-- Tree cell counter of a materialized cell. -/
def SCell.treeCells : SCell → Nat
  | .mk _ _ _ _ c => c

/-- Little-endian byte decomposition of a Nat into k bytes. -/
def natLEBytes : Nat → Nat → List Nat
  | 0, _ => []
  | k + 1, n => n % 256 :: natLEBytes k (n / 256)

/-- Embedding of StorageCell::serialize_to on a materialized cell: the
cell-data bytes, the reference count as one byte (the u8 cast of the
source), the repr hash of each serialized reference, and the two tree
counters as 8 little-endian bytes each. -/
def scellSerialize (c : SCell) : List Nat :=
  c.cellData ++ [c.refs.length % 256] ++
    ((c.refs.take (c.refs.length % 256)).map SCell.hash).flatten ++
    natLEBytes 8 c.treeBits ++ natLEBytes 8 c.treeCells

mutual

/-- Size measure of a materialized cell, for termination of the DFS. -/
def scellSize : SCell → Nat
  | .mk _ _ refs _ _ => 1 + scellListSize refs

/-- Size measure of a list of materialized cells. -/
def scellListSize : List SCell → Nat
  | [] => 0
  | c :: rest => scellSize c + scellListSize rest

end

/-- The list size measure is the sum of the member sizes. -/
theorem scellListSize_eq_sum (l : List SCell) :
    scellListSize l = (l.map scellSize).sum := by
  induction l with
  | nil => rfl
  | cons c rest ih => simp [scellListSize, ih]

/-- Batch-local entry of the store_cell transaction (CellWithRefs). -/
structure CellWithRefs where
  rc : Nat
  data : List Nat
deriving DecidableEq

/-- Batch-local context of store_cell (Context), holding the
transaction map. -/
structure StoreCtx where
  transaction : List (List Nat × CellWithRefs)
deriving DecidableEq

/-- Embedding of Context::insert_cell: on a key already in the
transaction bump the local rc (a u32 counter in the source, so the
bump wraps mod U32) and do not descend; on a fresh key serialize the
cell into a local rc = 1 entry and descend exactly when the on-disk
row is absent or a tombstone. -/
def storeInsertCell (ctx : StoreCtx) (key : List Nat) (cell : SCell)
    (value : Option RowValue) : StoreCtx × Bool :=
  let hasValue := match value with
    | some v => refcountHasValue v
    | none => false
  match alookup ctx.transaction key with
  | some cwr =>
    ({ transaction :=
        aupdate ctx.transaction key { cwr with rc := (cwr.rc + 1) % U32 } },
      false)
  | none =>
    ({ transaction :=
        ainsert ctx.transaction key { rc := 1, data := scellSerialize cell } },
      !hasValue)

/-- Embedding of Context::finalize: one positive-delta merge per
transaction entry, returning the number of distinct cells touched. -/
def storeFinalize (ctx : StoreCtx) : Nat × List BatchOp :=
  (ctx.transaction.length,
    ctx.transaction.map
      (fun kv => BatchOp.merge kv.1 (kv.2.rc : Int) (some kv.2.data)))

/-- One pass of the store_cell loop body over the references of the
popped cell, in order: insert each, collecting those to be pushed. -/
def storeVisitRefs (disk : List Nat → Option RowValue) :
    StoreCtx → List SCell → StoreCtx × List SCell
  | ctx, [] => (ctx, [])
  | ctx, c :: rest =>
    let r := storeInsertCell ctx c.hash c (disk c.hash)
    let r2 := storeVisitRefs disk r.1 rest
    (r2.1, if r.2 then c :: r2.2 else r2.2)

/-- The cells collected for pushing are a selection of the references,
so their total size is bounded by the size of the references. -/
theorem storeVisitRefs_size (disk : List Nat → Option RowValue)
    (ctx : StoreCtx) (l : List SCell) :
    (((storeVisitRefs disk ctx l).2.map scellSize).sum) ≤
      ((l.map scellSize).sum) := by
  induction l generalizing ctx with
  | nil => simp [storeVisitRefs]
  | cons c rest ih =>
    have h := ih (storeInsertCell ctx c.hash c (disk c.hash)).1
    cases hd : (storeInsertCell ctx c.hash c (disk c.hash)).2 <;>
      simp [storeVisitRefs, hd] <;> omega

/-- Decrease of the DFS measure when the popped cell is replaced by the
selection of its references that gets pushed. -/
theorem storeLoop_dec (disk : List Nat → Option RowValue) (ctx : StoreCtx)
    (cur : SCell) (rest : List SCell) :
    (((storeVisitRefs disk ctx cur.refs).2.reverse ++ rest).map
      scellSize).sum < ((cur :: rest).map scellSize).sum := by
  simp only [List.map_append, List.sum_append, List.map_reverse,
    List.sum_reverse, List.map_cons, List.sum_cons]
  have hle := storeVisitRefs_size disk ctx cur.refs
  have hcur : scellSize cur = 1 + (cur.refs.map scellSize).sum := by
    cases cur
    simp [scellSize, SCell.refs, scellListSize_eq_sum]
  omega

/-- Embedding of the explicit-stack DFS loop of store_cell: pop the top
cell, insert each of its references, and push those that were fresh and
not already persisted (in stack order, last reference on top). -/
def storeLoop (disk : List Nat → Option RowValue) (ctx : StoreCtx)
    (stack : List SCell) : StoreCtx :=
  match stack with
  | [] => ctx
  | current :: rest =>
    let r := storeVisitRefs disk ctx current.refs
    storeLoop disk r.1 (r.2.reverse ++ rest)
termination_by (stack.map scellSize).sum
decreasing_by
  exact storeLoop_dec disk ctx _ _

/-- Embedding of CellStorage::store_cell: check the root first and,
when its insertion reports nothing fresh to persist (the row already
exists with a positive refcount), return 0 at once without finalizing,
leaving the batch untouched; otherwise run the DFS and finalize the
transaction into the batch. -/
def storeCell (disk : List Nat → Option RowValue) (root : SCell) :
    Except CellStorageError (Nat × List BatchOp) :=
  let r := storeInsertCell { transaction := [] } root.hash root
    (disk root.hash)
  if !r.2 then
    .ok (0, [])
  else
    .ok (storeFinalize (storeLoop disk r.1 [root]))

/-- Batch operations scheduled by store_cell (empty when it errors). -/
def storeCellOps (disk : List Nat → Option RowValue) (root : SCell) :
    List BatchOp :=
  match storeCell disk root with
  | .ok x => x.2
  | .error _ => []

/-- New-cell count returned by store_cell, when it succeeds. -/
def storeCellCount (disk : List Nat → Option RowValue) (root : SCell) :
    Option Nat :=
  match storeCell disk root with
  | .ok x => some x.1
  | .error _ => none

/-- Root cell of the C1 counterexample: a leaf already on disk. -/
def rootC1 : SCell := SCell.mk (List.replicate 32 3) [5] [] 8 1

/-- Cells column of the C1 counterexample: the root row exists with
refcount 1. -/
def diskC1 : List Nat → Option RowValue :=
  fun k => if k = List.replicate 32 3 then some ⟨1, [9]⟩ else none

/-- C1 counterexample: with the root row present at refcount 1,
store_cell returns 0 but schedules no batch operation at all, in
particular no +1 refcount bump for the root. -/
theorem store_cell_existing_root_cex :
    refcountHasValue ⟨1, [9]⟩ = true ∧
    storeCellCount diskC1 rootC1 = some 0 ∧
    storeCellOps diskC1 rootC1 = [] := by
  refine ⟨rfl, rfl, rfl⟩

/-- C1 amended: for every root cell whose row already exists on disk
with a positive refcount, store_cell(batch, root) returns 0 new cells
and leaves the batch untouched: no refcount bump and no body write is
scheduled. -/
theorem store_cell_existing_root (disk : List Nat → Option RowValue)
    (root : SCell) (row : RowValue) (hrow : disk root.hash = some row)
    (hpos : 0 < row.rc) :
    storeCell disk root = .ok (0, []) := by
  unfold storeCell storeInsertCell
  rw [hrow]
  simp [alookup, refcountHasValue, hpos]

/-- Witness for the amended C1 at the concrete counterexample input. -/
theorem store_cell_existing_root_witness :
    storeCell diskC1 rootC1 = .ok (0, []) :=
  store_cell_existing_root diskC1 rootC1 ⟨1, [9]⟩ rfl (by decide)

/-! ## remove_cell (src/storage/shard_state_storage/cell_storage.rs)

The batch-local transaction maps hashes to CellState values.  The
reference parsing of stored bodies (StorageCell::deserialize_references
over the external cell-data codec) is a parameter deserRefs; a row whose
body it rejects yields InvalidCell exactly as in the source. -/

/-- Batch-local state of one cell during remove_cell (CellState). -/
structure CellState where
  rc : Int
  removes : Nat
  refs : List (List Nat)
deriving DecidableEq

/-- Embedding of CellState::next_refs: descend only when the stored
refcount no longer exceeds the scheduled removes. -/
def CellState.nextRefs (s : CellState) : Option (List (List Nat)) :=
  if s.rc > (s.removes : Int) then none else some s.refs

/-- Embedding of CellState::remove: bump removes (a u32 counter in the
source, so the increment wraps mod U32), fail with CounterMismatch when
the bumped counter exceeds the stored refcount, and otherwise report
the references to descend into, if any. -/
def CellState.remove (s : CellState) :
    Except CellStorageError (CellState × Option (List (List Nat))) :=
  let s2 : CellState := { s with removes := (s.removes + 1) % U32 }
  if (s2.removes : Int) ≤ s.rc then .ok (s2, s2.nextRefs)
  else .error .CounterMismatch

/-- Embedding of one iteration of the remove_cell loop for the popped
hash: revisits go through CellState::remove; first visits read the row
(absent rows and tombstones fail CellNotFound), parse its references
(failure is InvalidCell), and enter the transaction with removes = 1. -/
def removeVisit (deserRefs : List Nat → Option (List (List Nat)))
    (disk : List Nat → Option RowValue)
    (txn : List (List Nat × CellState)) (cellId : List Nat) :
    Except CellStorageError
      (List (List Nat × CellState) × Option (List (List Nat))) :=
  match alookup txn cellId with
  | some st =>
    match st.remove with
    | .ok (st2, refs) => .ok (aupdate txn cellId st2, refs)
    | .error e => .error e
  | none =>
    match disk cellId with
    | none => .error .CellNotFound
    | some v =>
      match decodeValueWithRc v with
      | (rc, some body) =>
        match deserRefs body with
        | some refs =>
          .ok (ainsert txn cellId { rc := rc, removes := 1, refs := refs },
            CellState.nextRefs { rc := rc, removes := 1, refs := refs })
        | none => .error .InvalidCell
      | (_, none) => .error .CellNotFound

/-- Embedding of the full remove_cell DFS with explicit fuel (the
source loop terminates because every descent is answered by
CounterMismatch on any later revisit); none means out of fuel. -/
def removeCellLoop (deserRefs : List Nat → Option (List (List Nat)))
    (disk : List Nat → Option RowValue) :
    Nat → List (List Nat × CellState) → List (List Nat) →
    Option (Except CellStorageError (List (List Nat × CellState)))
  | _, txn, [] => some (.ok txn)
  | 0, _, _ :: _ => none
  | fuel + 1, txn, cellId :: rest =>
    match removeVisit deserRefs disk txn cellId with
    | .error e => some (.error e)
    | .ok (txn2, none) => removeCellLoop deserRefs disk fuel txn2 rest
    | .ok (txn2, some refs) =>
      removeCellLoop deserRefs disk fuel txn2 (refs.reverse ++ rest)

/-- Embedding of CellStorage::remove_cell: run the DFS from the root
hash and emit one negative-delta merge per touched cell. -/
def removeCell (deserRefs : List Nat → Option (List (List Nat)))
    (disk : List Nat → Option RowValue) (fuel : Nat) (hash : List Nat) :
    Option (Except CellStorageError (Nat × List BatchOp)) :=
  match removeCellLoop deserRefs disk fuel [] [hash] with
  | some (.ok txn) =>
    some (.ok (txn.length,
      txn.map (fun kv => BatchOp.merge kv.1 (-(kv.2.removes : Int)) none)))
  | some (.error e) => some (.error e)
  | none => none

/-- Reduction of next_refs on a literal state. -/
theorem CellState.nextRefs_mk (rc : Int) (removes : Nat)
    (refs : List (List Nat)) :
    CellState.nextRefs ⟨rc, removes, refs⟩ =
      if (removes : Int) < rc then none else some refs := by
  rfl

/-- CellState::remove fails with CounterMismatch exactly above the
stored refcount, as long as the u32 removes counter does not wrap. -/
theorem CellState.remove_err (st : CellState) (hw : st.removes + 1 < U32)
    (h : st.rc < ((st.removes + 1 : Nat) : Int)) :
    st.remove = .error .CounterMismatch := by
  unfold CellState.remove
  show (if (((st.removes + 1) % U32 : Nat) : Int) ≤ st.rc then
      Except.ok ((⟨st.rc, (st.removes + 1) % U32, st.refs⟩ : CellState),
        CellState.nextRefs ⟨st.rc, (st.removes + 1) % U32, st.refs⟩)
    else Except.error CellStorageError.CounterMismatch) =
      Except.error CellStorageError.CounterMismatch
  rw [Nat.mod_eq_of_lt hw]
  rw [if_neg (by omega)]

/-- CellState::remove succeeds at or below the stored refcount,
returning the bumped state and its next_refs, as long as the u32
removes counter does not wrap. -/
theorem CellState.remove_ok (st : CellState) (hw : st.removes + 1 < U32)
    (h : ((st.removes + 1 : Nat) : Int) ≤ st.rc) :
    st.remove = .ok (⟨st.rc, st.removes + 1, st.refs⟩,
      CellState.nextRefs ⟨st.rc, st.removes + 1, st.refs⟩) := by
  unfold CellState.remove
  show (if (((st.removes + 1) % U32 : Nat) : Int) ≤ st.rc then
      Except.ok ((⟨st.rc, (st.removes + 1) % U32, st.refs⟩ : CellState),
        CellState.nextRefs ⟨st.rc, (st.removes + 1) % U32, st.refs⟩)
    else Except.error CellStorageError.CounterMismatch) = _
  rw [Nat.mod_eq_of_lt hw]
  rw [if_pos h]

/-- C5: in remove_cell, a first visit to a hash reads its row (failing
CellNotFound when the row is absent or a tombstone) and enters the
transaction with removes = 1, descending exactly when the refcount is
already matched; a revisit increments removes, failing CounterMismatch
exactly when removes would exceed the stored refcount, and descending
exactly when removes reaches it.  The revisit hypothesis
removes + 1 < U32 excludes wraparound of the u32 counter. -/
theorem remove_cell_visit_spec
    (deserRefs : List Nat → Option (List (List Nat)))
    (disk : List Nat → Option RowValue)
    (txn : List (List Nat × CellState)) (cellId : List Nat) :
    (alookup txn cellId = none →
      (disk cellId = none →
        removeVisit deserRefs disk txn cellId = .error .CellNotFound) ∧
      (∀ v, disk cellId = some v → v.rc ≤ 0 →
        removeVisit deserRefs disk txn cellId = .error .CellNotFound) ∧
      (∀ v refs, disk cellId = some v → 0 < v.rc →
        deserRefs v.body = some refs →
        removeVisit deserRefs disk txn cellId =
          .ok (ainsert txn cellId ⟨v.rc, 1, refs⟩,
            if v.rc = 1 then some refs else none))) ∧
    (∀ st, alookup txn cellId = some st → st.removes + 1 < U32 →
      (st.rc < ((st.removes + 1 : Nat) : Int) →
        removeVisit deserRefs disk txn cellId = .error .CounterMismatch) ∧
      (((st.removes + 1 : Nat) : Int) ≤ st.rc →
        removeVisit deserRefs disk txn cellId =
          .ok (aupdate txn cellId ⟨st.rc, st.removes + 1, st.refs⟩,
            if ((st.removes + 1 : Nat) : Int) = st.rc then some st.refs
            else none))) := by
  constructor
  · intro hlk
    refine ⟨?_, ?_, ?_⟩
    · intro hdisk
      simp [removeVisit, hlk, hdisk]
    · intro v hdisk hrc
      have hneg : ¬ (0 < v.rc) := by omega
      simp [removeVisit, hlk, hdisk, decodeValueWithRc, hneg]
    · intro v refs hdisk hrc hrefs
      have hnext : CellState.nextRefs ⟨v.rc, 1, refs⟩ =
          if v.rc = 1 then some refs else none := by
        rw [CellState.nextRefs_mk]
        by_cases h1 : v.rc = 1
        · simp [h1]
        · have h2 : ((1 : Nat) : Int) < v.rc := by
            exact_mod_cast (show (1 : Int) < v.rc by omega)
          rw [if_pos h2, if_neg h1]
      simp only [removeVisit, hlk, hdisk, decodeValueWithRc, if_pos hrc,
        hrefs, hnext]
  · intro st hlk hw
    constructor
    · intro hover
      simp only [removeVisit, hlk, CellState.remove_err st hw (by omega)]
    · intro hle
      have hnext : CellState.nextRefs ⟨st.rc, st.removes + 1, st.refs⟩ =
          if ((st.removes + 1 : Nat) : Int) = st.rc then some st.refs
          else none := by
        rw [CellState.nextRefs_mk]
        by_cases heq : ((st.removes + 1 : Nat) : Int) = st.rc
        · rw [if_neg (by omega), if_pos heq]
        · rw [if_pos (by omega), if_neg heq]
      simp only [removeVisit, hlk, CellState.remove_ok st hw hle, hnext]

/-- Hash used by the remove_cell and load_cell witnesses. -/
def hashW : List Nat := List.replicate 32 1

/-- Cells column for the remove_cell witness: one row with refcount 2
and body [4]. -/
def diskW : List Nat → Option RowValue :=
  fun k => if k = hashW then some ⟨2, [4]⟩ else none

/-- Reference parser for the remove_cell witness: body [4] is a cell
with no references. -/
def deserRefsW : List Nat → Option (List (List Nat)) :=
  fun b => if b = [4] then some [] else none

/-- Witness for C5: on a row with refcount 2, the first visit enters
removes = 1 without descending, the revisit reaches removes = 2 and
descends, and a third visit fails with CounterMismatch. -/
theorem remove_cell_visit_spec_witness :
    removeVisit deserRefsW diskW [] hashW =
      .ok ([(hashW, ⟨2, 1, []⟩)], none) ∧
    removeVisit deserRefsW diskW [(hashW, ⟨2, 1, []⟩)] hashW =
      .ok ([(hashW, ⟨2, 2, []⟩)], some []) ∧
    removeVisit deserRefsW diskW [(hashW, ⟨2, 2, []⟩)] hashW =
      .error .CounterMismatch := by
  refine ⟨?_, ?_, ?_⟩
  · have h := ((remove_cell_visit_spec deserRefsW diskW [] hashW).1 rfl).2.2
      ⟨2, [4]⟩ [] rfl (by decide) rfl
    simpa [ainsert] using h
  · have h := ((remove_cell_visit_spec deserRefsW diskW
      [(hashW, ⟨2, 1, []⟩)] hashW).2 ⟨2, 1, []⟩ rfl (by decide)).2 (by decide)
    simpa [aupdate] using h
  · exact ((remove_cell_visit_spec deserRefsW diskW
      [(hashW, ⟨2, 2, []⟩)] hashW).2 ⟨2, 2, []⟩ rfl (by decide)).1 (by decide)

/-! ## load_cell (src/storage/shard_state_storage/cell_storage.rs)

The weak cache maps hashes to weak references, embedded as Option
values: some means the upgrade succeeds and yields the live cell, none
means the weak reference is dead.  Deserialization of a stored body
(StorageCell::deserialize over the external cell-data codec) is the
parameter deser. -/

/-- Embedding of CellStorage::load_cell: try to upgrade a cached weak
reference first; otherwise read the row, strip its refcount, deserialize
the body, insert a weak reference into the cache and return the cell.
Returns the cell together with the updated cache. -/
def loadCell {α : Type} (deser : List Nat → Option α)
    (cache : List (List Nat × Option α)) (disk : List Nat → Option RowValue)
    (hash : List Nat) :
    Except CellStorageError (α × List (List Nat × Option α)) :=
  match alookup cache hash with
  | some (some cell) => .ok (cell, cache)
  | _ =>
    match disk hash with
    | some v =>
      match stripRefcount v with
      | some body =>
        match deser body with
        | some cell => .ok (cell, ainsert cache hash (some cell))
        | none => .error .InvalidCell
      | none => .error .CellNotFound
    | none => .error .CellNotFound

/-- C6: load_cell is cache-first (a live weak entry is returned with
the cache unchanged and the same result for every disk, so disk is not
touched); otherwise it fails CellNotFound exactly when the row is
absent or its refcount is at most 0, fails InvalidCell exactly when the
body of a live row does not deserialize, and on success inserts a weak
reference into the cache and returns the cell. -/
theorem load_cell_spec {α : Type} (deser : List Nat → Option α)
    (cache : List (List Nat × Option α)) (disk : List Nat → Option RowValue)
    (hash : List Nat) :
    (∀ c, alookup cache hash = some (some c) →
      ∀ disk2 : List Nat → Option RowValue,
        loadCell deser cache disk2 hash = .ok (c, cache)) ∧
    ((alookup cache hash = none ∨ alookup cache hash = some none) →
      (loadCell deser cache disk hash = .error .CellNotFound ↔
        (disk hash = none ∨ ∃ v, disk hash = some v ∧ v.rc ≤ 0)) ∧
      (loadCell deser cache disk hash = .error .InvalidCell ↔
        (∃ v, disk hash = some v ∧ 0 < v.rc ∧ deser v.body = none)) ∧
      (∀ v c, disk hash = some v → 0 < v.rc → deser v.body = some c →
        loadCell deser cache disk hash =
          .ok (c, ainsert cache hash (some c)))) := by
  constructor
  · intro c hc disk2
    simp [loadCell, hc]
  · intro hmiss
    have hred : ∀ disk3 : List Nat → Option RowValue,
        loadCell deser cache disk3 hash =
          match disk3 hash with
          | some v =>
            match stripRefcount v with
            | some body =>
              match deser body with
              | some cell =>
                .ok (cell, ainsert cache hash (some cell))
              | none => .error .InvalidCell
            | none => .error .CellNotFound
          | none => .error .CellNotFound := by
      intro disk3
      rcases hmiss with h | h <;> simp [loadCell, h]
    rcases hd : disk hash with _ | v
    · have hload : loadCell deser cache disk hash = .error .CellNotFound := by
        simp [hred disk, hd]
      refine ⟨?_, ?_, ?_⟩
      · rw [hload]
        simp
      · rw [hload]
        simp
      · intro v c hv
        cases hv
    · by_cases hrc : 0 < v.rc
      · rcases hdes : deser v.body with _ | c
        · have hload : loadCell deser cache disk hash =
              .error .InvalidCell := by
            simp [hred disk, hd, stripRefcount, hrc, hdes]
          refine ⟨?_, ?_, ?_⟩
          · rw [hload]
            constructor
            · intro h
              injection h with h2
              cases h2
            · rintro (h | ⟨v2, hv2, hrc2⟩)
              · cases h
              · injection hv2 with hv2
                subst hv2
                omega
          · rw [hload]
            exact ⟨fun _ => ⟨v, rfl, hrc, hdes⟩, fun _ => rfl⟩
          · intro v2 c hv2 hrc2 hdes2
            injection hv2 with hv2
            subst hv2
            rw [hdes] at hdes2
            cases hdes2
        · have hload : loadCell deser cache disk hash =
              .ok (c, ainsert cache hash (some c)) := by
            simp [hred disk, hd, stripRefcount, hrc, hdes]
          refine ⟨?_, ?_, ?_⟩
          · rw [hload]
            constructor
            · intro h
              cases h
            · rintro (h | ⟨v2, hv2, hrc2⟩)
              · cases h
              · injection hv2 with hv2
                subst hv2
                omega
          · rw [hload]
            constructor
            · intro h
              cases h
            · rintro ⟨v2, hv2, -, hdes2⟩
              injection hv2 with hv2
              subst hv2
              rw [hdes] at hdes2
              cases hdes2
          · intro v2 c2 hv2 hrc2 hdes2
            injection hv2 with hv2
            subst hv2
            rw [hdes] at hdes2
            injection hdes2 with hdes2
            subst hdes2
            exact hload
      · have hload : loadCell deser cache disk hash =
            .error .CellNotFound := by
          simp [hred disk, hd, stripRefcount, hrc]
        refine ⟨?_, ?_, ?_⟩
        · rw [hload]
          exact ⟨fun _ => Or.inr ⟨v, rfl, by omega⟩, fun _ => rfl⟩
        · rw [hload]
          constructor
          · intro h
            injection h with h2
            cases h2
          · rintro ⟨v2, hv2, hrc2, -⟩
            injection hv2 with hv2
            subst hv2
            exact absurd hrc2 hrc
        · intro v2 c hv2 hrc2 hdes2
          injection hv2 with hv2
          subst hv2
          exact absurd hrc2 hrc

/-- Deserializer for the load_cell witness: body [4] is cell 42. -/
def deserCellW : List Nat → Option Nat :=
  fun b => if b = [4] then some 42 else none

/-- Witness for C6: a live weak entry is returned untouched even on an
empty disk, and a miss on a live row deserializes, caches and returns
the cell. -/
theorem load_cell_spec_witness :
    loadCell deserCellW [(hashW, some 99)] (fun _ => none) hashW =
      .ok (99, [(hashW, some 99)]) ∧
    loadCell deserCellW [] diskW hashW =
      .ok (42, ainsert [] hashW (some 42)) := by
  constructor
  · exact (load_cell_spec deserCellW [(hashW, some 99)]
      (fun _ => none) hashW).1 99 rfl (fun _ => none)
  · exact ((load_cell_spec deserCellW [] diskW hashW).2 (Or.inl rfl)).2.2
      ⟨2, [4]⟩ 42 rfl (by decide) rfl

/-! ## Broadcast apply gates (src/engine/complex_operations/shard_client.rs)

Embedding of the tail of process_block_broadcast, after the body and
proof have been stored: the decision whether to call apply_block_ext
and with which arguments.  Sequence numbers are u32, hence the explicit
reductions mod U32. -/

/-- Arguments of an apply_block_ext call issued by the broadcast path:
the mc_seq_no passed and the pre_apply flag. -/
structure ApplyCall where
  mcSeqNo : Nat
  preApply : Bool
deriving DecidableEq

/-- Errors of the embedded shard-client operations (ShardClientError). -/
inductive ShardClientError where
  | MasterchainBlockNotFound
  | ShardchainBlockHandleNotFound
  | BlockIdMismatch
  | InvalidBlockProof
  | InvalidBlockExtra
deriving DecidableEq

/-- Embedding of the conditional-apply tail of process_block_broadcast:
a masterchain block is applied with pre_apply = false exactly when its
seq_no is the successor of the last applied mc block; a shardchain
block requires a master ref (else InvalidBlockExtra) and is applied
with pre_apply = true and the shards-client seq_no exactly when
shards_client.seq_no + 8 reaches the master ref. -/
def broadcastApplyStage (isMasterchain : Bool) (blockSeqNo : Nat)
    (lastAppliedMcSeqNo : Nat) (masterRefSeqNo : Option Nat)
    (shardsClientSeqNo : Nat) : Except ShardClientError (Option ApplyCall) :=
  if isMasterchain then
    if blockSeqNo = (lastAppliedMcSeqNo + 1) % U32 then
      .ok (some { mcSeqNo := blockSeqNo, preApply := false })
    else .ok none
  else
    match masterRefSeqNo with
    | none => .error .InvalidBlockExtra
    | some mref =>
      if mref ≤ (shardsClientSeqNo + 8) % U32 then
        .ok (some { mcSeqNo := shardsClientSeqNo, preApply := true })
      else .ok none

/-- C7: after storing body and proof, a masterchain broadcast is
applied (pre_apply = false) if and only if its seq_no equals
last_applied + 1, and a shardchain broadcast is applied if and only if
shards_client.seq_no + 8 covers its master ref, with pre_apply = true
and mc_seq_no = shards_client.seq_no; the bounds hypotheses exclude u32
wraparound of the two sums. -/
theorem process_block_broadcast_apply_gates (blockSeqNo lastApplied
    shardsClient mref : Nat) (hlast : lastApplied + 1 < U32)
    (hsc : shardsClient + 8 < U32) :
    (broadcastApplyStage true blockSeqNo lastApplied none shardsClient =
        .ok (some ⟨blockSeqNo, false⟩) ↔ blockSeqNo = lastApplied + 1) ∧
    (blockSeqNo ≠ lastApplied + 1 →
      broadcastApplyStage true blockSeqNo lastApplied none shardsClient =
        .ok none) ∧
    (broadcastApplyStage false blockSeqNo lastApplied (some mref)
        shardsClient = .ok (some ⟨shardsClient, true⟩) ↔
      mref ≤ shardsClient + 8) ∧
    (¬ mref ≤ shardsClient + 8 →
      broadcastApplyStage false blockSeqNo lastApplied (some mref)
        shardsClient = .ok none) := by
  unfold broadcastApplyStage
  rw [Nat.mod_eq_of_lt hlast, Nat.mod_eq_of_lt hsc]
  refine ⟨?_, ?_, ?_, ?_⟩
  · constructor
    · intro h
      by_contra hne
      simp [hne] at h
    · intro he
      simp [he]
  · intro hne
    simp [hne]
  · constructor
    · intro h
      by_contra hnle
      simp [hnle] at h
    · intro hle
      simp [hle]
  · intro hnle
    simp [hnle]

/-- Witness for C7: with last applied mc block 10 and shards client at
20, a masterchain broadcast at seq 11 is applied without pre_apply and
a shardchain broadcast with master ref 28 is applied with pre_apply. -/
theorem process_block_broadcast_apply_gates_witness :
    (broadcastApplyStage true 11 10 none 20 = .ok (some ⟨11, false⟩) ↔
      (11 : Nat) = 10 + 1) ∧
    ((11 : Nat) ≠ 10 + 1 →
      broadcastApplyStage true 11 10 none 20 = .ok none) ∧
    (broadcastApplyStage false 11 10 (some 28) 20 =
        .ok (some ⟨20, true⟩) ↔ (28 : Nat) ≤ 20 + 8) ∧
    (¬ (28 : Nat) ≤ 20 + 8 →
      broadcastApplyStage false 11 10 (some 28) 20 = .ok none) :=
  process_block_broadcast_apply_gates 11 10 20 28 (by decide) (by decide)

/-! ## load_next_masterchain_block (src/engine/complex_operations/shard_client.rs)

The engine collaborator and the storage layers it calls are external;
their observable outcomes for one invocation are collected in an
environment record, and the writes the function performs (stores and
applies) are made explicit as a list of effects, so that failing before
any mutation is visible as an empty effect list. -/

/-- Handle of the previous masterchain block, as relevant here: whether
its next1 connection is already known. -/
structure McHandle where
  hasNext1 : Bool
deriving DecidableEq

/-- Errors of the embedded masterchain step: a shard-client validation
error or a failure inside an external engine or storage call. -/
inductive McError where
  | client (e : ShardClientError)
  | engine
deriving DecidableEq

/-- Storage or apply actions performed by the masterchain step. -/
inductive McEffect where
  | downloadAndApply (seqNo : Nat)
  | storeBlockData (seqNo : Nat)
  | storeBlockProof (seqNo : Nat)
  | applyBlock (seqNo : Nat)
deriving DecidableEq

/-- Outcomes of the external calls made by one invocation of
load_next_masterchain_block. -/
structure McEnv where
  prevHandle : Option McHandle
  next1SeqNo : Nat
  next1ApplyOk : Bool
  downloadOk : Bool
  downloadedSeqNo : Nat
  downloadedIsLink : Bool
  precheckOk : Bool
  waitStateOk : Bool
  checkMasterOk : Bool
  handleHasData : Bool
  handleHasProof : Bool
  applyOk : Bool

/-- Embedding of load_next_masterchain_block: follow the next1 edge
when the handle has one; otherwise download the next block, validate
its seq_no and that the proof is not a link, run the proof checks
against the previous state, and only then store the body (when the
handle lacks data), store the proof (when the handle lacks it) and
apply. -/
def loadNextMasterchainBlock (env : McEnv) (prevSeqNo : Nat) :
    Except McError Nat × List McEffect :=
  match env.prevHandle with
  | none => (.error (.client .MasterchainBlockNotFound), [])
  | some h =>
    if h.hasNext1 then
      if env.next1ApplyOk then
        (.ok env.next1SeqNo, [.downloadAndApply env.next1SeqNo])
      else (.error .engine, [.downloadAndApply env.next1SeqNo])
    else if env.downloadOk then
      if env.downloadedSeqNo ≠ (prevSeqNo + 1) % U32 then
        (.error (.client .BlockIdMismatch), [])
      else if env.downloadedIsLink then
        (.error (.client .InvalidBlockProof), [])
      else if env.precheckOk then
        if env.waitStateOk then
          if env.checkMasterOk then
            ((if env.applyOk then .ok env.downloadedSeqNo
              else .error .engine),
              (if env.handleHasData then []
                else [McEffect.storeBlockData env.downloadedSeqNo]) ++
              (if env.handleHasProof then []
                else [McEffect.storeBlockProof env.downloadedSeqNo]) ++
              [McEffect.applyBlock env.downloadedSeqNo])
          else (.error .engine, [])
        else (.error .engine, [])
      else (.error .engine, [])
    else (.error .engine, [])

/-- C8: when the previous handle exists without a next1 edge and the
download of the next masterchain block succeeds, a seq_no different
from prev.seq_no + 1 fails with BlockIdMismatch and a link proof fails
with InvalidBlockProof, in both cases before any store or apply effect
is performed. -/
theorem load_next_masterchain_block_validation (env : McEnv)
    (prevSeqNo : Nat) (h : McHandle) (hprev : env.prevHandle = some h)
    (hnext : h.hasNext1 = false) (hdl : env.downloadOk = true)
    (hwrap : prevSeqNo + 1 < U32) :
    (env.downloadedSeqNo ≠ prevSeqNo + 1 →
      loadNextMasterchainBlock env prevSeqNo =
        (.error (.client .BlockIdMismatch), [])) ∧
    (env.downloadedSeqNo = prevSeqNo + 1 → env.downloadedIsLink = true →
      loadNextMasterchainBlock env prevSeqNo =
        (.error (.client .InvalidBlockProof), [])) := by
  constructor
  · intro hne
    have hne2 : env.downloadedSeqNo ≠ (prevSeqNo + 1) % U32 := by
      rw [Nat.mod_eq_of_lt hwrap]
      exact hne
    simp [loadNextMasterchainBlock, hprev, hnext, hdl, hne2]
  · intro heq hlink
    have heq2 : env.downloadedSeqNo = (prevSeqNo + 1) % U32 := by
      rw [Nat.mod_eq_of_lt hwrap]
      exact heq
    simp [loadNextMasterchainBlock, hprev, hnext, hdl, heq2, hlink]

/-- Environment for the C8 witness: handle present without next1, the
downloaded block has seq_no 7 and a link proof. -/
def mcEnvW : McEnv :=
  { prevHandle := some ⟨false⟩
    next1SeqNo := 0
    next1ApplyOk := true
    downloadOk := true
    downloadedSeqNo := 7
    downloadedIsLink := true
    precheckOk := true
    waitStateOk := true
    checkMasterOk := true
    handleHasData := false
    handleHasProof := false
    applyOk := true }

/-- Witness for C8: from prev seq_no 5 the downloaded seq_no 7 fails
BlockIdMismatch with no effects; from prev seq_no 6 the link proof
fails InvalidBlockProof with no effects. -/
theorem load_next_masterchain_block_validation_witness :
    loadNextMasterchainBlock mcEnvW 5 =
      (.error (.client .BlockIdMismatch), []) ∧
    loadNextMasterchainBlock mcEnvW 6 =
      (.error (.client .InvalidBlockProof), []) := by
  constructor
  · exact (load_next_masterchain_block_validation mcEnvW 5 ⟨false⟩ rfl rfl
      rfl (by decide)).1 (by decide)
  · exact (load_next_masterchain_block_validation mcEnvW 6 ⟨false⟩ rfl rfl
      rfl (by decide)).2 rfl rfl

/-! ## Serialization round trip (src/storage/shard_state_storage/cell_storage.rs)

StorageCell::serialize_to and StorageCell::deserialize_references frame
the external ton_types cell-data serialization, which is abstracted as
a codec pair (serCD, deserCD); the round-trip hypothesis on that codec
is exactly what the external crate provides.  Reference hashes are the
32 bytes written by repr_hash().as_slice() and read back by
read_u256(). -/

/-- Cell as consumed by the parameterized serializer: cell data of the
abstract codec type, reference repr hashes and the tree counters. -/
structure PCell (α : Type) where
  cellData : α
  refs : List (List Nat)
  treeBits : Nat
  treeCells : Nat

/-- Embedding of StorageCell::serialize_to over the cell-data codec
serCD: cell data, the reference count as one byte (the u8 cast of the
source), the reference hashes in order, and the two tree counters as 8
little-endian bytes each. -/
def serializeToP {α : Type} (serCD : α → List Nat) (c : PCell α) :
    List Nat :=
  serCD c.cellData ++ [c.refs.length % 256] ++
    (c.refs.take (c.refs.length % 256)).flatten ++
    natLEBytes 8 c.treeBits ++ natLEBytes 8 c.treeCells

/-- Loop of deserialize_references: read the given number of 32-byte
hashes, appending each to the target; fail when bytes run short. -/
def readRefHashes : Nat → List Nat → List (List Nat) →
    Bool × List (List Nat)
  | 0, _, target => (true, target)
  | n + 1, data, target =>
    if 32 ≤ data.length then
      readRefHashes n (data.drop 32) (target ++ [data.take 32])
    else (false, target)

/-- Embedding of StorageCell::deserialize_references over the cell-data
codec deserCD: skip the cell data, read the reference count byte, then
read that many 32-byte hashes into the target; trailing bytes (the tree
counters) are ignored. -/
def deserializeReferencesP {α : Type}
    (deserCD : List Nat → Option (α × List Nat)) (data : List Nat)
    (target : List (List Nat)) : Bool × List (List Nat) :=
  match deserCD data with
  | none => (false, target)
  | some (_, rest) =>
    match rest with
    | [] => (false, target)
    | cnt :: rest2 => readRefHashes cnt rest2 target

/-- Reading back a flattened run of 32-byte hashes recovers them in
order, whatever follows them. -/
theorem readRefHashes_flatten (refs : List (List Nat)) (suffix : List Nat)
    (target : List (List Nat)) (hlen : ∀ h ∈ refs, h.length = 32) :
    readRefHashes refs.length (refs.flatten ++ suffix) target =
      (true, target ++ refs) := by
  induction refs generalizing target with
  | nil => simp [readRefHashes]
  | cons hd rest ih =>
    have hh : hd.length = 32 := hlen hd (List.mem_cons_self _ _)
    have hlen2 : ∀ x ∈ rest, x.length = 32 :=
      fun x hx => hlen x (List.mem_cons_of_mem _ hx)
    show readRefHashes (rest.length + 1) ((hd :: rest).flatten ++ suffix)
      target = (true, target ++ hd :: rest)
    rw [List.flatten_cons, List.append_assoc]
    unfold readRefHashes
    rw [if_pos (by simp [hh]), List.take_left' hh, List.drop_left' hh]
    have h2 := ih (target ++ [hd]) hlen2
    rw [List.append_assoc, List.singleton_append] at h2
    exact h2

/-- C9: serialization round trip of cell references: on every cell with
at most 4 references (the ton_types cell invariant, which also keeps
the u8 count cast lossless) whose reference hashes are 32 bytes,
deserialize_references applied to the bytes produced by serialize_to
returns true and appends exactly the reference hashes of the cell, in
reference order, to the target. -/
theorem serialize_references_roundtrip {α : Type} (serCD : α → List Nat)
    (deserCD : List Nat → Option (α × List Nat)) (c : PCell α)
    (target : List (List Nat))
    (hcodec : ∀ rest : List Nat,
      deserCD (serCD c.cellData ++ rest) = some (c.cellData, rest))
    (hlen : ∀ h ∈ c.refs, h.length = 32) (hcount : c.refs.length ≤ 4) :
    deserializeReferencesP deserCD (serializeToP serCD c) target =
      (true, target ++ c.refs) := by
  have hmod : c.refs.length % 256 = c.refs.length :=
    Nat.mod_eq_of_lt (by omega)
  unfold serializeToP deserializeReferencesP
  rw [hmod, List.take_length]
  simp only [List.append_assoc]
  rw [hcodec, List.singleton_append]
  exact readRefHashes_flatten c.refs
    (natLEBytes 8 c.treeBits ++ natLEBytes 8 c.treeCells) target hlen

/-- Cell-data serializer of the C9 witness: length-led bytes. -/
def serCDW : List Nat → List Nat := fun d => d.length :: d

/-- Cell-data deserializer of the C9 witness: inverse of serCDW. -/
def deserCDW : List Nat → Option (List Nat × List Nat) :=
  fun bs =>
    match bs with
    | [] => none
    | n :: rest =>
      if n ≤ rest.length then some (rest.take n, rest.drop n) else none

/-- Cell of the C9 witness: two references with distinct 32-byte
hashes. -/
def pcellW : PCell (List Nat) :=
  { cellData := [5, 6]
    refs := [List.replicate 32 7, List.replicate 32 8]
    treeBits := 3
    treeCells := 4 }

/-- Witness for C9: the concrete round trip recovers both reference
hashes in order. -/
theorem serialize_references_roundtrip_witness :
    deserializeReferencesP deserCDW (serializeToP serCDW pcellW) [] =
      (true, [] ++ pcellW.refs) := by
  apply serialize_references_roundtrip
  · intro rest
    show deserCDW ((2 : Nat) :: ([5, 6] ++ rest)) = some ([5, 6], rest)
    unfold deserCDW
    show (if (2 : Nat) ≤ ([5, 6] ++ rest).length then
        some (([5, 6] ++ rest).take 2, ([5, 6] ++ rest).drop 2)
      else none) = some ([5, 6], rest)
    rw [if_pos (by simp),
      List.take_left' (show ([5, 6] : List Nat).length = 2 from rfl),
      List.drop_left' (show ([5, 6] : List Nat).length = 2 from rfl)]
  · intro h hm
    rcases List.mem_cons.mp hm with rfl | hm2
    · simp
    · rcases List.mem_cons.mp hm2 with rfl | hm3
      · simp
      · cases hm3
  · show (2 : Nat) ≤ 4
    omega
